/-
  Verification of the ts-utils helper library (array iteration, enum-map
  construction, and the timer-handle abstraction) against its design
  specification.  Shallow embedding: JavaScript arrays with holes are
  `List (Option α)`, JavaScript objects are string-keyed lookup
  structures, and the timer handle is an explicit state machine over
  virtual time.
-/
import Mathlib

set_option autoImplicit false

universe u

/-! ## Arrays with holes, and `arrForEach` (src/lib/src/helpers/array.ts) -/

/--
A JavaScript array value as seen by `arrForEach`: `Option.none` stands for a
`null`/`undefined` array argument, and inside the array each slot is
`Option.none` for a hole (an index not present in the array) or `some a`
for an element.
-/
def JsArr (α : Type u) : Type u := Option (List (Option α))

/--
The loop body of `arrForEach`: `idx` is the current index into the original
list `l`, and the fuel argument is the number of remaining iterations
(`len - idx`, with `len` captured before the first iteration).  A slot that
is a hole (`idx in arr` fails) is skipped without invoking the callback;
otherwise the callback is invoked with the element and the index, and the
iteration breaks as soon as the callback returns `-1`.  The result is the
list of (element, index) visits, in the order the callback was invoked.
-/
def arrForEachLoop {α : Type u} (l : List (Option α)) (f : α → Nat → Int) :
    Nat → Nat → List (α × Nat)
  | _, 0 => []
  | idx, fuel + 1 =>
    match l[idx]? with
    | some (some a) =>
      if f a idx = -1 then [(a, idx)]
      else (a, idx) :: arrForEachLoop l f (idx + 1) fuel
    | _ => arrForEachLoop l f (idx + 1) fuel

/--
`arrForEach arr callbackfn` (src/lib/src/helpers/array.ts lines 77-88):
if `arr` is falsy (`null`/`undefined`) nothing happens; otherwise the
length is captured once and the loop runs indices `0 ≤ idx < len`,
skipping holes and breaking when the callback returns `-1`.  The shallow
embedding returns the trace of callback invocations (the source performs
them for effect).
-/
def arrForEach {α : Type u} (arr : JsArr α) (f : α → Nat → Int) : List (α × Nat) :=
  match arr with
  | Option.none => []
  | some l => arrForEachLoop l f 0 l.length

/--
Specification-side description of the visit order: the (element, index)
pairs of the non-hole slots of `l`, in ascending index order, where `i` is
the index of the head slot.
-/
def presentFrom {α : Type u} : List (Option α) → Nat → List (α × Nat)
  | [], _ => []
  | Option.none :: rest, i => presentFrom rest (i + 1)
  | some a :: rest, i => (a, i) :: presentFrom rest (i + 1)

/--
Specification-side description of early exit: keep entries up to and
including the first one on which the callback returns `-1`.
-/
def stopAtNeg1 {α : Type u} (f : α → Nat → Int) : List (α × Nat) → List (α × Nat)
  | [] => []
  | p :: rest => p :: (if f p.1 p.2 = -1 then [] else stopAtNeg1 f rest)

theorem drop_eq_cons_of_getElem? {α : Type u} :
    ∀ (l : List α) (idx : Nat) (x : α), l[idx]? = some x →
      l.drop idx = x :: l.drop (idx + 1) := by
  intro l
  induction l with
  | nil => intro idx x h; simp at h
  | cons a rest ih =>
    intro idx x h
    cases idx with
    | zero => simp_all
    | succ n => simpa using ih n x (by simpa using h)

theorem arrForEachLoop_eq_spec {α : Type u} (l : List (Option α)) (f : α → Nat → Int) :
    ∀ (fuel idx : Nat), l.length ≤ idx + fuel →
      arrForEachLoop l f idx fuel = stopAtNeg1 f (presentFrom (l.drop idx) idx) := by
  intro fuel
  induction fuel with
  | zero =>
    intro idx h
    have hd : l.drop idx = [] := List.drop_eq_nil_of_le (by omega)
    simp [arrForEachLoop, hd, presentFrom, stopAtNeg1]
  | succ n ih =>
    intro idx h
    cases hget : l[idx]? with
    | none =>
      have hlen : l.length ≤ idx := List.getElem?_eq_none_iff.mp hget
      have hd : l.drop idx = [] := List.drop_eq_nil_of_le hlen
      have hd' : l.drop (idx + 1) = [] := List.drop_eq_nil_of_le (by omega)
      have := ih (idx + 1) (by omega)
      simp [arrForEachLoop, hget, hd, hd', presentFrom, stopAtNeg1, this]
    | some x =>
      have hd : l.drop idx = x :: l.drop (idx + 1) := drop_eq_cons_of_getElem? l idx x hget
      cases x with
      | none =>
        have := ih (idx + 1) (by omega)
        simp [arrForEachLoop, hget, hd, presentFrom, this]
      | some a =>
        have := ih (idx + 1) (by omega)
        by_cases hneg : f a idx = -1
        · simp [arrForEachLoop, hget, hd, presentFrom, stopAtNeg1, hneg]
        · simp [arrForEachLoop, hget, hd, presentFrom, stopAtNeg1, hneg, this]

theorem presentFrom_index_ge {α : Type u} :
    ∀ (l : List (Option α)) (i : Nat) (p : α × Nat), p ∈ presentFrom l i → i ≤ p.2 := by
  intro l
  induction l with
  | nil => intro i p h; simp [presentFrom] at h
  | cons x rest ih =>
    intro i p h
    cases x with
    | none =>
      have := ih (i + 1) p (by simpa [presentFrom] using h)
      omega
    | some a =>
      simp [presentFrom] at h
      rcases h with h | h
      · simp [h]
      · have := ih (i + 1) p h
        omega

theorem presentFrom_pairwise {α : Type u} :
    ∀ (l : List (Option α)) (i : Nat),
      List.Pairwise (fun p q : α × Nat => p.2 < q.2) (presentFrom l i) := by
  intro l
  induction l with
  | nil => intro i; simp [presentFrom]
  | cons x rest ih =>
    intro i
    cases x with
    | none => simpa [presentFrom] using ih (i + 1)
    | some a =>
      refine List.Pairwise.cons ?_ (ih (i + 1))
      intro q hq
      have := presentFrom_index_ge rest (i + 1) q hq
      simpa using by omega

theorem stopAtNeg1_sublist {α : Type u} (f : α → Nat → Int) :
    ∀ (xs : List (α × Nat)), (stopAtNeg1 f xs).Sublist xs := by
  intro xs
  induction xs with
  | nil => simp [stopAtNeg1]
  | cons p rest ih =>
    by_cases h : f p.1 p.2 = -1
    · simp only [stopAtNeg1, h, if_pos]
      exact List.Sublist.cons₂ p (List.nil_sublist rest)
    · simp only [stopAtNeg1, h, if_neg, not_false_iff]
      exact List.Sublist.cons₂ p ih

/--
C9: `arrForEach(arr, callbackfn)` visits the elements of `arr` in ascending
index order starting from index 0, over the length captured before the
first call, skipping holes (indices not present in the array); it stops
visiting as soon as the callback returns `-1` (the visit producing `-1` is
the last one), leaving all later elements unvisited; and when `arr` is
`null`/`undefined` it visits nothing and raises no error.  The visit trace
equals exactly the non-hole (element, index) entries in ascending order,
truncated after the first `-1`, and its indices are strictly increasing.
-/
theorem arrForEach_visits_in_order {α : Type u} (f : α → Nat → Int) (l : List (Option α)) :
    arrForEach (Option.none : JsArr α) f = [] ∧
    arrForEach (some l) f = stopAtNeg1 f (presentFrom l 0) ∧
    List.Pairwise (fun p q : α × Nat => p.2 < q.2) (arrForEach (some l) f) := by
  have hmain : arrForEach (some l) f = stopAtNeg1 f (presentFrom l 0) := by
    have := arrForEachLoop_eq_spec l f l.length 0 (by omega)
    simpa [arrForEach] using this
  refine ⟨rfl, hmain, ?_⟩
  rw [hmain]
  exact List.Pairwise.sublist (stopAtNeg1_sublist f (presentFrom l 0)) (presentFrom_pairwise l 0)

example : arrForEach (some [some 10, Option.none, some 20, some 30]) (fun _ _ => 0) =
    [(10, 0), (20, 2), (30, 3)] := by decide

example : arrForEach (some [some 10, Option.none, some 20, some 30])
    (fun a _ => if a = 20 then -1 else 0) = [(10, 0), (20, 2)] := by decide

/-! ## JavaScript objects and `createEnum` (src/ts-utils/src/helpers/enum.ts) -/

/--
A JavaScript property value as used by `createEnum`: enum members are
either strings or numbers.
-/
inductive JsVal where
  | str (s : String)
  | num (n : Int)
  deriving DecidableEq

/--
The property key a value coerces to when used in a computed member access
`obj[value]`: strings index as themselves, numbers index as their decimal
string.
-/
def keyOf : JsVal → String
  | JsVal.str s => s
  | JsVal.num n => toString n

/--
A JavaScript object: a string-keyed property table together with its
frozen flag.
-/
structure JsObj where
  getProp : String → Option JsVal
  frozen : Bool

/-- The empty object literal. -/
def emptyObj : JsObj := { getProp := fun _ => Option.none, frozen := false }

/-- Property assignment `o[k] = v`: a later write overrides an earlier one. -/
def objSet (o : JsObj) (k : String) (v : JsVal) : JsObj :=
  { o with getProp := fun q => if q = k then some v else o.getProp q }

/--
Modelled from the spec: `objDeepFreeze` (src/ts-utils/src/object/object.ts,
not present under src/) is documented by `createEnum`'s own doc comment to
return "a new frozen (immutable) object"; in the pure model freezing marks
the object frozen and leaves its properties untouched.
-/
def objDeepFreeze (o : JsObj) : JsObj := { o with frozen := true }

/--
The body of `createEnum`'s `objForEachKey` callback: for an input entry
`field -> value` it performs `theEnum[field] = value` and then
`theEnum[value] = field` (so the reverse write is the later one).
-/
def enumStep (theEnum : JsObj) (fv : String × JsVal) : JsObj :=
  objSet (objSet theEnum fv.1 fv.2) (keyOf fv.2) (JsVal.str fv.1)

/--
`createEnum(values)` (src/ts-utils/src/helpers/enum.ts lines 77-85): walk
the entries of `values`, writing both the forward and the reverse mapping
into a fresh object, then deep-freeze it.  `objForEachKey`
(src/ts-utils/src/object/for_each_key.ts, not present under src/) is
modelled as iteration over the entries in property order, which the input
association list carries directly.
-/
def createEnum (values : List (String × JsVal)) : JsObj :=
  objDeepFreeze (values.foldl enumStep emptyObj)

/--
All property keys written by `createEnum` for the given input: each
entry's own key and the key its value coerces to.
-/
def writeKeys (values : List (String × JsVal)) : List String :=
  values.flatMap fun p => [p.1, keyOf p.2]

theorem getProp_objSet_same (o : JsObj) (k : String) (v : JsVal) :
    (objSet o k v).getProp k = some v := by
  simp [objSet]

theorem getProp_objSet_other (o : JsObj) (k q : String) (v : JsVal) (h : q ≠ k) :
    (objSet o k v).getProp q = o.getProp q := by
  simp [objSet, h]

theorem getProp_foldl_untouched :
    ∀ (values : List (String × JsVal)) (o : JsObj) (q : String),
      q ∉ writeKeys values → (values.foldl enumStep o).getProp q = o.getProp q := by
  intro values
  induction values with
  | nil => intro o q _; rfl
  | cons p rest ih =>
    intro o q hq
    simp only [writeKeys, List.flatMap_cons, List.mem_append, List.mem_cons,
      List.not_mem_nil, or_false, not_or] at hq
    obtain ⟨⟨h1, h2⟩, h3'⟩ := hq
    have h3 : q ∉ writeKeys rest := h3'
    calc ((p :: rest).foldl enumStep o).getProp q
        = (rest.foldl enumStep (enumStep o p)).getProp q := rfl
      _ = (enumStep o p).getProp q := ih (enumStep o p) q h3
      _ = o.getProp q := by
          rw [enumStep, getProp_objSet_other _ _ _ _ h2, getProp_objSet_other _ _ _ _ h1]

theorem getProp_foldl_forward_reverse :
    ∀ (values : List (String × JsVal)) (o : JsObj),
      (writeKeys values).Nodup →
      ∀ kv ∈ values,
        (values.foldl enumStep o).getProp kv.1 = some kv.2 ∧
        (values.foldl enumStep o).getProp (keyOf kv.2) = some (JsVal.str kv.1) := by
  intro values
  induction values with
  | nil => intro o _ kv hkv; simp at hkv
  | cons p rest ih =>
    intro o hnd kv hkv
    have hshape : writeKeys (p :: rest) = p.1 :: keyOf p.2 :: writeKeys rest := by
      simp [writeKeys]
    rw [hshape] at hnd
    have hnd1 := List.nodup_cons.mp hnd
    have hnd2 := List.nodup_cons.mp hnd1.2
    have hne : p.1 ≠ keyOf p.2 := by
      intro h; exact hnd1.1 (by simp [h])
    have hk_not : p.1 ∉ writeKeys rest := by
      intro h; exact hnd1.1 (by simp [h])
    have hv_not : keyOf p.2 ∉ writeKeys rest := hnd2.1
    rcases List.mem_cons.mp hkv with heq | hmem
    · subst heq
      constructor
      · calc ((kv :: rest).foldl enumStep o).getProp kv.1
            = (rest.foldl enumStep (enumStep o kv)).getProp kv.1 := rfl
          _ = (enumStep o kv).getProp kv.1 := getProp_foldl_untouched rest _ kv.1 hk_not
          _ = some kv.2 := by
              rw [enumStep, getProp_objSet_other _ _ _ _ hne, getProp_objSet_same]
      · calc ((kv :: rest).foldl enumStep o).getProp (keyOf kv.2)
            = (rest.foldl enumStep (enumStep o kv)).getProp (keyOf kv.2) := rfl
          _ = (enumStep o kv).getProp (keyOf kv.2) := getProp_foldl_untouched rest _ _ hv_not
          _ = some (JsVal.str kv.1) := by rw [enumStep, getProp_objSet_same]
    · exact ih (enumStep o p) hnd2.2 kv hmem

/--
C10 counterexample: with the input `{"0": 5, "B": 0}` (entries in the
object's own enumeration order), the reverse write `theEnum[0] = "B"` of
the second entry overwrites the forward write `theEnum["0"] = 5` of the
first entry, so the claimed unconditional forward/reverse properties fail:
`result["0"]` is the string `"B"`, not the number `5`.
-/
theorem createEnum_roundtrip_counterexample :
    ¬ (∀ kv ∈ [("0", JsVal.num 5), ("B", JsVal.num 0)],
        (createEnum [("0", JsVal.num 5), ("B", JsVal.num 0)]).getProp kv.1 = some kv.2 ∧
        (createEnum [("0", JsVal.num 5), ("B", JsVal.num 0)]).getProp (keyOf kv.2) =
          some (JsVal.str kv.1)) := by
  intro h
  have := (h ("0", JsVal.num 5) (by simp)).1
  have hval : (createEnum [("0", JsVal.num 5), ("B", JsVal.num 0)]).getProp "0" =
      some (JsVal.str "B") := by rfl
  rw [hval] at this
  simp at this

/--
C10 (amended): `createEnum(values)` returns a frozen object, and provided
the property keys it writes — each entry's key and the string coercion of
each entry's value — are pairwise distinct, the result contains for every
entry `key -> value` both the forward property (`result[key]` equals
`value`) and the reverse property (`result[value]` equals `key`), and
hence the round trip `result[result[key]] = key` holds for every entry.
-/
theorem createEnum_forward_reverse (values : List (String × JsVal)) :
    (createEnum values).frozen = true ∧
    ((writeKeys values).Nodup →
      ∀ kv ∈ values,
        (createEnum values).getProp kv.1 = some kv.2 ∧
        (createEnum values).getProp (keyOf kv.2) = some (JsVal.str kv.1) ∧
        ∃ v, (createEnum values).getProp kv.1 = some v ∧
          (createEnum values).getProp (keyOf v) = some (JsVal.str kv.1)) := by
  constructor
  · rfl
  · intro hnd kv hkv
    have hfr : (createEnum values).getProp = (values.foldl enumStep emptyObj).getProp := rfl
    have h := getProp_foldl_forward_reverse values emptyObj hnd kv hkv
    refine ⟨by rw [hfr]; exact h.1, by rw [hfr]; exact h.2, kv.2, ?_, ?_⟩
    · rw [hfr]; exact h.1
    · rw [hfr]; exact h.2

/--
Witness for C10 at a concrete well-formed enum: `createEnum({Dog: 0, Cat: 1})`
is frozen, maps `Dog` to `0` and `0` back to `Dog`.
-/
theorem createEnum_forward_reverse_witness :
    (createEnum [("Dog", JsVal.num 0), ("Cat", JsVal.num 1)]).frozen = true ∧
    (createEnum [("Dog", JsVal.num 0), ("Cat", JsVal.num 1)]).getProp "Dog" =
      some (JsVal.num 0) ∧
    (createEnum [("Dog", JsVal.num 0), ("Cat", JsVal.num 1)]).getProp "0" =
      some (JsVal.str "Dog") := by
  have h := createEnum_forward_reverse [("Dog", JsVal.num 0), ("Cat", JsVal.num 1)]
  have h2 := h.2 (by decide) ("Dog", JsVal.num 0) (by simp)
  exact ⟨h.1, h2.1, h2.2.1⟩

/-! ## The timer handle (spec sections 3-4; implementation src/timer/timeout.ts
    is not present under src/, only its test suite in
    src/lib/src/helpers/array.ts lines 237-817 is, so the operations are
    modelled from the specification over explicit virtual time). -/

/--
Modelled from the spec: an element of the override argument accepted by the
`*With` factories (src/timer/timeout.ts, not present under src/) — a slot
of the override pair may be `null`/`undefined`, a non-function value, or an
actual function; non-function slots fall back to the platform default.
-/
inductive OvEntry where
  | nullE
  | nonFnE
  | fnE
  deriving DecidableEq

/--
Modelled from the spec: the whole override argument of
`scheduleTimeoutWith`/`createTimeoutWith` (src/timer/timeout.ts, not
present under src/) — `null`/absent, a single schedule function (cancel
falls back to the platform default), or an array whose first two slots are
the schedule and cancel overrides.
-/
inductive OverrideArg where
  | noArg
  | singleFn
  | arr (entries : List OvEntry)
  deriving DecidableEq

/-- Whether an (optional) override slot is an actual function. -/
def entryIsFn : Option OvEntry → Bool
  | some OvEntry.fnE => true
  | _ => false

/--
Modelled from the spec: normalization of the override argument performed
once at construction (spec section 9, design note on the pluggable
scheduling strategy): the result records, for the schedule half and the
cancel half, whether a caller override function is in use (`true`) or the
platform default (`false`).
-/
def normalizeOverride : OverrideArg → Bool × Bool
  | OverrideArg.noArg => (false, false)
  | OverrideArg.singleFn => (true, false)
  | OverrideArg.arr es => (entryIsFn es[0]?, entryIsFn es[1]?)

/--
Modelled from the spec: the TimerHandle state (spec section 3), extended
with the observation history needed to state the claims.  `delay`, `args`
and the normalized override configuration (`schedOv`/`cancelOv`) are fixed
at creation; `now` is virtual time; `pendingDue` is `some due` exactly
when an underlying platform timer is outstanding with due time `due`;
`fired`/`hasRefFlag` are the lifecycle flags; `fireCount` and `argsLog`
record every invocation of the user callback with the arguments it
received; `schedCalls`/`cancelCalls` count invocations of the override
schedule/cancel functions (zero when the platform default is in use).
-/
structure TimerState where
  delay : Nat
  args : List String
  schedOv : Bool
  cancelOv : Bool
  now : Nat
  pendingDue : Option Nat
  fired : Bool
  hasRefFlag : Bool
  fireCount : Nat
  argsLog : List (List String)
  schedCalls : Nat
  cancelCalls : Nat
  deriving DecidableEq

/-- Modelled from the spec: `ref()` sets has-ref to true (spec 4.1). -/
def refOp (s : TimerState) : TimerState := { s with hasRefFlag := true }

/-- Modelled from the spec: `unref()` sets has-ref to false (spec 4.1). -/
def unrefOp (s : TimerState) : TimerState := { s with hasRefFlag := false }

/-- Modelled from the spec: `hasRef()` returns the current has-ref flag (spec 4.1). -/
def hasRef (s : TimerState) : Bool := s.hasRefFlag

/--
Modelled from the spec: `cancel()` (spec 4.1) — if a timer is currently
pending, invoke the configured cancel primitive (counted when it is a
caller override) and clear the stored opaque handle; a no-op when nothing
is pending.  The has-ref flag is untouched.
-/
def cancelOp (s : TimerState) : TimerState :=
  match s.pendingDue with
  | some _ =>
    { s with pendingDue := Option.none,
             cancelCalls := s.cancelCalls + (if s.cancelOv then 1 else 0) }
  | Option.none => s

/--
Modelled from the spec: `refresh()` (spec 4.1) — cancel any currently
pending underlying schedule (invoking the configured cancel primitive if
one is pending), then invoke the configured schedule primitive anew with
the original callback/delay/args, storing the new opaque handle whose due
time is the full delay measured from the moment of the call; reset `fired`.
-/
def refreshOp (s : TimerState) : TimerState :=
  let s1 := cancelOp s
  { s1 with pendingDue := some (s.now + s.delay),
            fired := false,
            schedCalls := s1.schedCalls + (if s.schedOv then 1 else 0) }

/--
Modelled from the spec: the passage of `n` units of virtual time (spec
section on firing semantics) — when the pending due time is reached the
platform invokes the stored callback: the handle marks itself fired,
clears the opaque handle, and forwards the original args to the user
callback (recorded in `fireCount`/`argsLog`); otherwise only the clock
moves.
-/
def advance (s : TimerState) (n : Nat) : TimerState :=
  match s.pendingDue with
  | some due =>
    if due ≤ s.now + n then
      { s with now := s.now + n,
               pendingDue := Option.none,
               fired := true,
               fireCount := s.fireCount + 1,
               argsLog := s.args :: s.argsLog }
    else { s with now := s.now + n }
  | Option.none => { s with now := s.now + n }

/--
Modelled from the spec: `createTimeoutWith(overrideFns, callback, delay,
...args)` (spec 4.1) — construct the handle unscheduled (armed only by an
explicit `refresh()`), referenced, with the override configuration
normalized once.
-/
def createTimeoutWith (ov : OverrideArg) (delay : Nat) (args : List String) : TimerState :=
  { delay := delay
    args := args
    schedOv := (normalizeOverride ov).1
    cancelOv := (normalizeOverride ov).2
    now := 0
    pendingDue := Option.none
    fired := false
    hasRefFlag := true
    fireCount := 0
    argsLog := []
    schedCalls := 0
    cancelCalls := 0 }

/--
Modelled from the spec: `createTimeout(callback, delay, ...args)` (spec
4.1) — the non-override factory, using the platform default pair.
-/
def createTimeout (delay : Nat) (args : List String) : TimerState :=
  createTimeoutWith OverrideArg.noArg delay args

/--
Modelled from the spec: `scheduleTimeoutWith(overrideFns, callback, delay,
...args)` (spec 4.1) — construct the handle already pending (auto-armed),
with the configured schedule primitive invoked once at construction.
-/
def scheduleTimeoutWith (ov : OverrideArg) (delay : Nat) (args : List String) : TimerState :=
  { delay := delay
    args := args
    schedOv := (normalizeOverride ov).1
    cancelOv := (normalizeOverride ov).2
    now := 0
    pendingDue := some delay
    fired := false
    hasRefFlag := true
    fireCount := 0
    argsLog := []
    schedCalls := if (normalizeOverride ov).1 then 1 else 0
    cancelCalls := 0 }

/--
Modelled from the spec: `scheduleTimeout(callback, delay, ...args)` (spec
4.1) — the auto-armed non-override factory.
-/
def scheduleTimeout (delay : Nat) (args : List String) : TimerState :=
  scheduleTimeoutWith OverrideArg.noArg delay args

/-- An observable interaction with a timer handle: the instance operations
of spec 4.1 plus the passage of virtual time. -/
inductive TimerOp where
  | refreshO
  | cancelO
  | refO
  | unrefO
  | advanceO (n : Nat)
  deriving DecidableEq

/-- Apply one interaction to the state. -/
def applyOp (s : TimerState) : TimerOp → TimerState
  | TimerOp.refreshO => refreshOp s
  | TimerOp.cancelO => cancelOp s
  | TimerOp.refO => refOp s
  | TimerOp.unrefO => unrefOp s
  | TimerOp.advanceO n => advance s n

/-- Run a sequence of interactions. -/
def runOps (s : TimerState) : List TimerOp → TimerState
  | [] => s
  | op :: rest => runOps (applyOp s op) rest

/-- Total virtual time elapsed over a sequence of interactions. -/
def totalTime : List TimerOp → Nat
  | [] => 0
  | TimerOp.advanceO n :: rest => n + totalTime rest
  | _ :: rest => totalTime rest

/-- Number of `refresh()` calls in a sequence of interactions. -/
def countRefresh : List TimerOp → Nat
  | [] => 0
  | TimerOp.refreshO :: rest => 1 + countRefresh rest
  | _ :: rest => countRefresh rest

/-- Number of effective `cancel()` calls — those executed while a timer was
actually pending — along a run from `s`. -/
def effCancels : TimerState → List TimerOp → Nat
  | _, [] => 0
  | s, TimerOp.cancelO :: rest =>
    (if s.pendingDue.isSome then 1 else 0) + effCancels (applyOp s TimerOp.cancelO) rest
  | s, op :: rest => effCancels (applyOp s op) rest

/-- Number of `refresh()` calls executed while a timer was actually pending
along a run from `s`. -/
def pendRefreshes : TimerState → List TimerOp → Nat
  | _, [] => 0
  | s, TimerOp.refreshO :: rest =>
    (if s.pendingDue.isSome then 1 else 0) + pendRefreshes (applyOp s TimerOp.refreshO) rest
  | s, op :: rest => pendRefreshes (applyOp s op) rest

/-- Interactions that neither cancel nor refresh: pure passage of time and
ref/unref calls. -/
def isTimeOp : TimerOp → Bool
  | TimerOp.refreshO => false
  | TimerOp.cancelO => false
  | _ => true

/-- Interactions other than `refresh()`. -/
def notRefreshOp : TimerOp → Bool
  | TimerOp.refreshO => false
  | _ => true

/-- The has-ref value demanded by the most recent `ref()`/`unref()` call,
starting from `b` when no such call occurs. -/
def lastRefState (b : Bool) : List TimerOp → Bool
  | [] => b
  | TimerOp.refO :: rest => lastRefState true rest
  | TimerOp.unrefO :: rest => lastRefState false rest
  | _ :: rest => lastRefState b rest

theorem applyOp_args (s : TimerState) (op : TimerOp) : (applyOp s op).args = s.args := by
  cases op <;> cases h : s.pendingDue <;>
    simp only [applyOp, refOp, unrefOp, cancelOp, refreshOp, advance, h] <;>
    (try split) <;> rfl

theorem applyOp_delay (s : TimerState) (op : TimerOp) : (applyOp s op).delay = s.delay := by
  cases op <;> cases h : s.pendingDue <;>
    simp only [applyOp, refOp, unrefOp, cancelOp, refreshOp, advance, h] <;>
    (try split) <;> rfl

theorem applyOp_schedOv (s : TimerState) (op : TimerOp) : (applyOp s op).schedOv = s.schedOv := by
  cases op <;> cases h : s.pendingDue <;>
    simp only [applyOp, refOp, unrefOp, cancelOp, refreshOp, advance, h] <;>
    (try split) <;> rfl

theorem applyOp_cancelOv (s : TimerState) (op : TimerOp) :
    (applyOp s op).cancelOv = s.cancelOv := by
  cases op <;> cases h : s.pendingDue <;>
    simp only [applyOp, refOp, unrefOp, cancelOp, refreshOp, advance, h] <;>
    (try split) <;> rfl

theorem cancelOp_hasRef (s : TimerState) : (cancelOp s).hasRefFlag = s.hasRefFlag := by
  cases h : s.pendingDue <;> simp [cancelOp, h]

theorem refreshOp_hasRef (s : TimerState) : (refreshOp s).hasRefFlag = s.hasRefFlag := by
  simp [refreshOp, cancelOp_hasRef]

theorem advance_hasRef (s : TimerState) (n : Nat) :
    (advance s n).hasRefFlag = s.hasRefFlag := by
  cases h : s.pendingDue with
  | none => simp [advance, h]
  | some due => by_cases hle : due ≤ s.now + n <;> simp [advance, h, hle]

theorem cancelOp_fireCount (s : TimerState) : (cancelOp s).fireCount = s.fireCount := by
  cases h : s.pendingDue <;> simp [cancelOp, h]

theorem refreshOp_fireCount (s : TimerState) : (refreshOp s).fireCount = s.fireCount := by
  simp [refreshOp, cancelOp_fireCount]

theorem cancelOp_now (s : TimerState) : (cancelOp s).now = s.now := by
  cases h : s.pendingDue <;> simp [cancelOp, h]

theorem refreshOp_now (s : TimerState) : (refreshOp s).now = s.now := by
  simp [refreshOp, cancelOp_now]

theorem refreshOp_pendingDue (s : TimerState) :
    (refreshOp s).pendingDue = some (s.now + s.delay) := by
  simp [refreshOp]

theorem cancelOp_pendingDue (s : TimerState) : (cancelOp s).pendingDue = Option.none := by
  cases h : s.pendingDue <;> simp [cancelOp, h]

theorem isTimeOp_notRefresh (op : TimerOp) (h : isTimeOp op = true) :
    notRefreshOp op = true := by
  cases op <;> simp_all [isTimeOp, notRefreshOp]

theorem totalTime_pos_has_advance :
    ∀ (ops : List TimerOp), 0 < totalTime ops → ∃ n, TimerOp.advanceO n ∈ ops := by
  intro ops
  induction ops with
  | nil => intro h; simp [totalTime] at h
  | cons op rest ih =>
    intro h
    cases op with
    | advanceO n => exact ⟨n, List.mem_cons_self _ _⟩
    | refreshO =>
      obtain ⟨n, hn⟩ := ih (by simpa [totalTime] using h)
      exact ⟨n, List.mem_cons_of_mem _ hn⟩
    | cancelO =>
      obtain ⟨n, hn⟩ := ih (by simpa [totalTime] using h)
      exact ⟨n, List.mem_cons_of_mem _ hn⟩
    | refO =>
      obtain ⟨n, hn⟩ := ih (by simpa [totalTime] using h)
      exact ⟨n, List.mem_cons_of_mem _ hn⟩
    | unrefO =>
      obtain ⟨n, hn⟩ := ih (by simpa [totalTime] using h)
      exact ⟨n, List.mem_cons_of_mem _ hn⟩

theorem runOps_unarmed_silent :
    ∀ (ops : List TimerOp) (s : TimerState),
      (∀ op ∈ ops, notRefreshOp op = true) →
      s.pendingDue = Option.none →
      (runOps s ops).fireCount = s.fireCount ∧
      (runOps s ops).pendingDue = Option.none := by
  intro ops
  induction ops with
  | nil => intro s _ hp; exact ⟨rfl, hp⟩
  | cons op rest ih =>
    intro s hall hp
    have hop := hall op (List.mem_cons_self op rest)
    have hrest : ∀ o ∈ rest, notRefreshOp o = true :=
      fun o ho => hall o (List.mem_cons_of_mem op ho)
    cases op with
    | refreshO => simp [notRefreshOp] at hop
    | cancelO =>
      have hstep : applyOp s TimerOp.cancelO = s := by simp [applyOp, cancelOp, hp]
      simp only [runOps, hstep]
      exact ih s hrest hp
    | refO => exact ih (refOp s) hrest hp
    | unrefO => exact ih (unrefOp s) hrest hp
    | advanceO n =>
      have hstep : applyOp s (TimerOp.advanceO n) = { s with now := s.now + n } := by
        simp [applyOp, advance, hp]
      simp only [runOps, hstep]
      exact ih _ hrest hp

theorem runOps_pending_silent :
    ∀ (ops : List TimerOp) (s : TimerState) (due : Nat),
      (∀ op ∈ ops, isTimeOp op = true) →
      s.pendingDue = some due →
      s.now + totalTime ops < due →
      (runOps s ops).fireCount = s.fireCount ∧
      (runOps s ops).pendingDue = some due ∧
      (runOps s ops).now = s.now + totalTime ops := by
  intro ops
  induction ops with
  | nil => intro s due _ hp hlt; exact ⟨rfl, hp, by simp [runOps, totalTime]⟩
  | cons op rest ih =>
    intro s due hall hp hlt
    have hop := hall op (List.mem_cons_self op rest)
    have hrest : ∀ o ∈ rest, isTimeOp o = true :=
      fun o ho => hall o (List.mem_cons_of_mem op ho)
    cases op with
    | refreshO => simp [isTimeOp] at hop
    | cancelO => simp [isTimeOp] at hop
    | refO =>
      have h := ih (refOp s) due hrest hp (by simpa [totalTime, refOp] using hlt)
      simpa [totalTime, refOp] using h
    | unrefO =>
      have h := ih (unrefOp s) due hrest hp (by simpa [totalTime, unrefOp] using hlt)
      simpa [totalTime, unrefOp] using h
    | advanceO n =>
      have hnofire : ¬ due ≤ s.now + n := by
        simp only [totalTime] at hlt
        omega
      have hstep : applyOp s (TimerOp.advanceO n) = { s with now := s.now + n } := by
        simp [applyOp, advance, hp, hnofire]
      simp only [runOps, hstep]
      have h := ih { s with now := s.now + n } due hrest hp
        (by simp only [totalTime] at hlt ⊢; omega)
      refine ⟨h.1, h.2.1, ?_⟩
      rw [h.2.2]
      simp only [totalTime]
      omega

theorem runOps_pending_fires :
    ∀ (ops : List TimerOp) (s : TimerState) (due : Nat),
      (∀ op ∈ ops, isTimeOp op = true) →
      s.pendingDue = some due →
      due ≤ s.now + totalTime ops →
      (∃ n, TimerOp.advanceO n ∈ ops) →
      (runOps s ops).fireCount = s.fireCount + 1 := by
  intro ops
  induction ops with
  | nil => intro s due _ _ _ hadv; simp at hadv
  | cons op rest ih =>
    intro s due hall hp hle hadv
    have hop := hall op (List.mem_cons_self op rest)
    have hrest : ∀ o ∈ rest, isTimeOp o = true :=
      fun o ho => hall o (List.mem_cons_of_mem op ho)
    cases op with
    | refreshO => simp [isTimeOp] at hop
    | cancelO => simp [isTimeOp] at hop
    | refO =>
      have hadv' : ∃ n, TimerOp.advanceO n ∈ rest := by
        obtain ⟨n, hn⟩ := hadv
        cases List.mem_cons.mp hn with
        | inl h => cases h
        | inr h => exact ⟨n, h⟩
      exact ih (refOp s) due hrest hp (by simpa [totalTime, refOp] using hle) hadv'
    | unrefO =>
      have hadv' : ∃ n, TimerOp.advanceO n ∈ rest := by
        obtain ⟨n, hn⟩ := hadv
        cases List.mem_cons.mp hn with
        | inl h => cases h
        | inr h => exact ⟨n, h⟩
      exact ih (unrefOp s) due hrest hp (by simpa [totalTime, unrefOp] using hle) hadv'
    | advanceO n =>
      by_cases hfire : due ≤ s.now + n
      · have hstep : applyOp s (TimerOp.advanceO n) =
            { s with now := s.now + n, pendingDue := Option.none, fired := true,
                     fireCount := s.fireCount + 1, argsLog := s.args :: s.argsLog } := by
          simp [applyOp, advance, hp, hfire]
        show (runOps (applyOp s (TimerOp.advanceO n)) rest).fireCount = s.fireCount + 1
        rw [hstep]
        exact (runOps_unarmed_silent rest _
          (fun o ho => isTimeOp_notRefresh o (hrest o ho)) rfl).1
      · have hstep : applyOp s (TimerOp.advanceO n) = { s with now := s.now + n } := by
          simp [applyOp, advance, hp, hfire]
        show (runOps (applyOp s (TimerOp.advanceO n)) rest).fireCount = s.fireCount + 1
        rw [hstep]
        have hle' : due ≤ s.now + n + totalTime rest := by
          simp only [totalTime] at hle
          omega
        have hpos : 0 < totalTime rest := by omega
        exact ih { s with now := s.now + n } due hrest hp hle'
          (totalTime_pos_has_advance rest hpos)

theorem runOps_hasRef :
    ∀ (ops : List TimerOp) (s : TimerState),
      (runOps s ops).hasRefFlag = lastRefState s.hasRefFlag ops := by
  intro ops
  induction ops with
  | nil => intro s; rfl
  | cons op rest ih =>
    intro s
    cases op with
    | refreshO =>
      simp only [runOps, applyOp, lastRefState]
      rw [ih (refreshOp s), refreshOp_hasRef]
    | cancelO =>
      simp only [runOps, applyOp, lastRefState]
      rw [ih (cancelOp s), cancelOp_hasRef]
    | refO =>
      simp only [runOps, applyOp, lastRefState]
      exact ih (refOp s)
    | unrefO =>
      simp only [runOps, applyOp, lastRefState]
      exact ih (unrefOp s)
    | advanceO n =>
      simp only [runOps, applyOp, lastRefState]
      rw [ih (advance s n), advance_hasRef]

theorem applyOp_argsLog (s : TimerState) (op : TimerOp) :
    ∀ x, x ∈ (applyOp s op).argsLog → x ∈ s.argsLog ∨ x = s.args := by
  intro x hx
  cases op with
  | refreshO =>
    left
    have hlog : (refreshOp s).argsLog = s.argsLog := by
      cases h : s.pendingDue <;> simp [refreshOp, cancelOp, h]
    simp only [applyOp] at hx
    rwa [hlog] at hx
  | cancelO =>
    left
    have hlog : (cancelOp s).argsLog = s.argsLog := by
      cases h : s.pendingDue <;> simp [cancelOp, h]
    simp only [applyOp] at hx
    rwa [hlog] at hx
  | refO => exact Or.inl hx
  | unrefO => exact Or.inl hx
  | advanceO n =>
    cases h : s.pendingDue with
    | none =>
      simp only [applyOp, advance, h] at hx
      exact Or.inl hx
    | some due =>
      by_cases hle : due ≤ s.now + n
      · simp only [applyOp, advance, h, if_pos hle] at hx
        rcases List.mem_cons.mp hx with heq | hm
        · exact Or.inr heq
        · exact Or.inl hm
      · simp only [applyOp, advance, h, if_neg hle] at hx
        exact Or.inl hx

theorem runOps_argsLog :
    ∀ (ops : List TimerOp) (s : TimerState) (x : List String),
      x ∈ (runOps s ops).argsLog → x ∈ s.argsLog ∨ x = s.args := by
  intro ops
  induction ops with
  | nil => intro s x hx; exact Or.inl hx
  | cons op rest ih =>
    intro s x hx
    have h := ih (applyOp s op) x hx
    rcases h with h | h
    · exact applyOp_argsLog s op x h
    · right
      rw [h, applyOp_args]

theorem cancelOp_schedCalls (s : TimerState) : (cancelOp s).schedCalls = s.schedCalls := by
  cases h : s.pendingDue <;> simp [cancelOp, h]

theorem cancelOp_cancelCalls (s : TimerState) :
    (cancelOp s).cancelCalls =
      s.cancelCalls + (if s.pendingDue.isSome then (if s.cancelOv then 1 else 0) else 0) := by
  cases h : s.pendingDue <;> simp [cancelOp, h]

theorem refreshOp_schedCalls (s : TimerState) :
    (refreshOp s).schedCalls = s.schedCalls + (if s.schedOv then 1 else 0) := by
  simp [refreshOp, cancelOp_schedCalls]

theorem refreshOp_cancelCalls (s : TimerState) :
    (refreshOp s).cancelCalls = (cancelOp s).cancelCalls := by
  simp [refreshOp]

theorem advance_schedCalls (s : TimerState) (n : Nat) :
    (advance s n).schedCalls = s.schedCalls := by
  cases h : s.pendingDue with
  | none => simp [advance, h]
  | some due => by_cases hle : due ≤ s.now + n <;> simp [advance, h, hle]

theorem advance_cancelCalls (s : TimerState) (n : Nat) :
    (advance s n).cancelCalls = s.cancelCalls := by
  cases h : s.pendingDue with
  | none => simp [advance, h]
  | some due => by_cases hle : due ≤ s.now + n <;> simp [advance, h, hle]

theorem runOps_override_counts :
    ∀ (ops : List TimerOp) (s : TimerState),
      s.schedOv = true → s.cancelOv = true →
      (runOps s ops).schedCalls = s.schedCalls + countRefresh ops ∧
      (runOps s ops).cancelCalls = s.cancelCalls + effCancels s ops + pendRefreshes s ops := by
  intro ops
  induction ops with
  | nil =>
    intro s _ _
    exact ⟨by simp [runOps, countRefresh], by simp [runOps, effCancels, pendRefreshes]⟩
  | cons op rest ih =>
    intro s hs hc
    have hs' : (applyOp s op).schedOv = true := by rw [applyOp_schedOv]; exact hs
    have hc' : (applyOp s op).cancelOv = true := by rw [applyOp_cancelOv]; exact hc
    have h := ih (applyOp s op) hs' hc'
    cases op with
    | refreshO =>
      refine ⟨?_, ?_⟩
      · simp only [runOps, countRefresh]
        rw [h.1]
        simp only [applyOp]
        rw [refreshOp_schedCalls, hs]
        simp
        omega
      · simp only [runOps]
        rw [h.2]
        have e1 : effCancels s (TimerOp.refreshO :: rest) =
            effCancels (applyOp s TimerOp.refreshO) rest := by
          simp [effCancels]
        have e2 : pendRefreshes s (TimerOp.refreshO :: rest) =
            (if s.pendingDue.isSome then 1 else 0) +
              pendRefreshes (applyOp s TimerOp.refreshO) rest := by
          simp [pendRefreshes]
        have e3 : (applyOp s TimerOp.refreshO).cancelCalls =
            s.cancelCalls + (if s.pendingDue.isSome then 1 else 0) := by
          simp only [applyOp]
          rw [refreshOp_cancelCalls, cancelOp_cancelCalls, hc]
          simp
        rw [e1, e2, e3]
        omega
    | cancelO =>
      refine ⟨?_, ?_⟩
      · simp only [runOps, countRefresh]
        rw [h.1]
        simp only [applyOp]
        rw [cancelOp_schedCalls]
      · simp only [runOps]
        rw [h.2]
        have e1 : effCancels s (TimerOp.cancelO :: rest) =
            (if s.pendingDue.isSome then 1 else 0) +
              effCancels (applyOp s TimerOp.cancelO) rest := by
          simp [effCancels]
        have e2 : pendRefreshes s (TimerOp.cancelO :: rest) =
            pendRefreshes (applyOp s TimerOp.cancelO) rest := by
          simp [pendRefreshes]
        have e3 : (applyOp s TimerOp.cancelO).cancelCalls =
            s.cancelCalls + (if s.pendingDue.isSome then 1 else 0) := by
          simp only [applyOp]
          rw [cancelOp_cancelCalls, hc]
          simp
        rw [e1, e2, e3]
        omega
    | refO =>
      refine ⟨?_, ?_⟩
      · simp only [runOps, countRefresh]
        rw [h.1]
        rfl
      · simp only [runOps]
        rw [h.2]
        have e1 : effCancels s (TimerOp.refO :: rest) =
            effCancels (applyOp s TimerOp.refO) rest := by simp [effCancels]
        have e2 : pendRefreshes s (TimerOp.refO :: rest) =
            pendRefreshes (applyOp s TimerOp.refO) rest := by simp [pendRefreshes]
        rw [e1, e2]
        rfl
    | unrefO =>
      refine ⟨?_, ?_⟩
      · simp only [runOps, countRefresh]
        rw [h.1]
        rfl
      · simp only [runOps]
        rw [h.2]
        have e1 : effCancels s (TimerOp.unrefO :: rest) =
            effCancels (applyOp s TimerOp.unrefO) rest := by simp [effCancels]
        have e2 : pendRefreshes s (TimerOp.unrefO :: rest) =
            pendRefreshes (applyOp s TimerOp.unrefO) rest := by simp [pendRefreshes]
        rw [e1, e2]
        rfl
    | advanceO n =>
      refine ⟨?_, ?_⟩
      · simp only [runOps, countRefresh]
        rw [h.1]
        simp only [applyOp]
        rw [advance_schedCalls]
      · simp only [runOps]
        rw [h.2]
        have e1 : effCancels s (TimerOp.advanceO n :: rest) =
            effCancels (applyOp s (TimerOp.advanceO n)) rest := by simp [effCancels]
        have e2 : pendRefreshes s (TimerOp.advanceO n :: rest) =
            pendRefreshes (applyOp s (TimerOp.advanceO n)) rest := by simp [pendRefreshes]
        have e3 : (applyOp s (TimerOp.advanceO n)).cancelCalls = s.cancelCalls := by
          simp only [applyOp]
          rw [advance_cancelCalls]
        rw [e1, e2, e3]

/--
C1: for every delay d and trace of interactions containing no cancel and no
refresh, a timer created with `scheduleTimeout(cb, d)` invokes the callback
zero times while strictly less than d time units have elapsed, and exactly
once when at least d units have elapsed (and the elapse has been processed
by at least one clock advance).
-/
theorem timer_fires_exactly_once_after_delay (d : Nat) (a : List String)
    (ops : List TimerOp) (hall : ∀ op ∈ ops, isTimeOp op = true) :
    (totalTime ops < d → (runOps (scheduleTimeout d a) ops).fireCount = 0) ∧
    (d ≤ totalTime ops → (∃ n, TimerOp.advanceO n ∈ ops) →
      (runOps (scheduleTimeout d a) ops).fireCount = 1) := by
  have h0 : (scheduleTimeout d a).now = 0 := rfl
  constructor
  · intro hlt
    have h := runOps_pending_silent ops (scheduleTimeout d a) d hall rfl (by omega)
    exact h.1
  · intro hge hadv
    exact runOps_pending_fires ops (scheduleTimeout d a) d hall rfl (by omega) hadv

/-- Witness for C1 at d = 100: silent after 99 units, fired exactly once at 100. -/
theorem timer_fires_exactly_once_after_delay_witness :
    (runOps (scheduleTimeout 100 []) [TimerOp.advanceO 99]).fireCount = 0 ∧
    (runOps (scheduleTimeout 100 [])
      [TimerOp.advanceO 99, TimerOp.advanceO 1]).fireCount = 1 := by
  constructor
  · exact (timer_fires_exactly_once_after_delay 100 [] [TimerOp.advanceO 99]
      (by decide)).1 (by decide)
  · exact (timer_fires_exactly_once_after_delay 100 []
      [TimerOp.advanceO 99, TimerOp.advanceO 1] (by decide)).2 (by decide)
      ⟨99, by decide⟩

/--
C2: for every timer state that is pending with a due time not yet reached,
calling `cancel()` guarantees the callback is never invoked afterwards, no
matter how much time elapses and whatever non-refresh interactions follow,
until a subsequent `refresh()` arms a new period.
-/
theorem timer_cancel_suppresses_firing (s : TimerState) (due : Nat)
    (ops : List TimerOp) (hp : s.pendingDue = some due) (hlt : s.now < due)
    (hall : ∀ op ∈ ops, notRefreshOp op = true) :
    (runOps (cancelOp s) ops).fireCount = s.fireCount := by
  have h := runOps_unarmed_silent ops (cancelOp s) hall (cancelOp_pendingDue s)
  rw [h.1, cancelOp_fireCount]

/-- Witness for C2: schedule for 100, advance 99, cancel, advance 1 more —
the callback was never invoked. -/
theorem timer_cancel_suppresses_firing_witness :
    (runOps (cancelOp (runOps (scheduleTimeout 100 []) [TimerOp.advanceO 99]))
      [TimerOp.advanceO 1]).fireCount = 0 := by
  have h := timer_cancel_suppresses_firing
    (runOps (scheduleTimeout 100 []) [TimerOp.advanceO 99]) 100
    [TimerOp.advanceO 1] (by decide) (by decide) (by decide)
  exact h.trans (by decide)

/--
C3: for every timer state — pending with partially elapsed delay, canceled,
or already fired — `refresh()` arms a fresh pending period measured from
the moment of the call: over any following cancel-free and refresh-free
trace the callback has not fired again while strictly less than the
configured delay has elapsed since the refresh, and has fired exactly once
more when at least the configured delay has elapsed.
-/
theorem timer_refresh_restarts_full_delay (s : TimerState) (ops : List TimerOp)
    (hall : ∀ op ∈ ops, isTimeOp op = true) :
    (totalTime ops < s.delay → (runOps (refreshOp s) ops).fireCount = s.fireCount) ∧
    (s.delay ≤ totalTime ops → (∃ n, TimerOp.advanceO n ∈ ops) →
      (runOps (refreshOp s) ops).fireCount = s.fireCount + 1) := by
  constructor
  · intro hlt
    have h := runOps_pending_silent ops (refreshOp s) (s.now + s.delay) hall
      (refreshOp_pendingDue s) (by rw [refreshOp_now]; omega)
    rw [h.1, refreshOp_fireCount]
  · intro hge hadv
    have h := runOps_pending_fires ops (refreshOp s) (s.now + s.delay) hall
      (refreshOp_pendingDue s) (by rw [refreshOp_now]; omega) hadv
    rw [h, refreshOp_fireCount]

/-- Witness for C3: schedule for 100, advance 99, refresh — 99 more units
stay silent, a full 100 more fires exactly once (at the 199 mark). -/
theorem timer_refresh_restarts_full_delay_witness :
    (runOps (refreshOp (runOps (scheduleTimeout 100 []) [TimerOp.advanceO 99]))
      [TimerOp.advanceO 99]).fireCount = 0 ∧
    (runOps (refreshOp (runOps (scheduleTimeout 100 []) [TimerOp.advanceO 99]))
      [TimerOp.advanceO 100]).fireCount = 1 := by
  constructor
  · have h := (timer_refresh_restarts_full_delay
      (runOps (scheduleTimeout 100 []) [TimerOp.advanceO 99])
      [TimerOp.advanceO 99] (by decide)).1 (by decide)
    exact h.trans (by decide)
  · have h := (timer_refresh_restarts_full_delay
      (runOps (scheduleTimeout 100 []) [TimerOp.advanceO 99])
      [TimerOp.advanceO 100] (by decide)).2 (by decide) ⟨100, by decide⟩
    exact h.trans (by decide)

/--
C4: the has-ref flag starts true at creation for both factories; after any
trace of interactions `hasRef()` returns exactly the value set by the most
recent `ref()`/`unref()` call (true when none occurred); repeated
consecutive `ref()`/`unref()` calls are idempotent; and no firing,
`cancel()`, or `refresh()` ever changes the flag.
-/
theorem timer_hasRef_tracks_last_ref_call (ov : OverrideArg) (d : Nat)
    (a : List String) (ops : List TimerOp) (s : TimerState) (n : Nat) :
    (createTimeoutWith ov d a).hasRefFlag = true ∧
    (scheduleTimeoutWith ov d a).hasRefFlag = true ∧
    (runOps (createTimeoutWith ov d a) ops).hasRefFlag = lastRefState true ops ∧
    (runOps (scheduleTimeoutWith ov d a) ops).hasRefFlag = lastRefState true ops ∧
    refOp (refOp s) = refOp s ∧
    unrefOp (unrefOp s) = unrefOp s ∧
    (cancelOp s).hasRefFlag = s.hasRefFlag ∧
    (refreshOp s).hasRefFlag = s.hasRefFlag ∧
    (advance s n).hasRefFlag = s.hasRefFlag := by
  exact ⟨rfl, rfl, runOps_hasRef ops _, runOps_hasRef ops _, rfl, rfl,
    cancelOp_hasRef s, refreshOp_hasRef s, advance_hasRef s n⟩

/--
C5 counterexample: on a timer armed via `scheduleTimeoutWith` with both
override halves supplied, a single `refresh()` while the timer is pending
invokes the cancel override once (spec 4.1: refresh cancels any currently
pending underlying schedule) although zero `cancel()` calls of a pending
timer occurred — so the override cancel function is invoked more times
than "exactly once per cancel() of a currently pending timer".
-/
theorem timer_override_counts_counterexample :
    (runOps (scheduleTimeoutWith (OverrideArg.arr [OvEntry.fnE, OvEntry.fnE]) 100 [])
      [TimerOp.refreshO]).cancelCalls = 1 ∧
    effCancels (scheduleTimeoutWith (OverrideArg.arr [OvEntry.fnE, OvEntry.fnE]) 100 [])
      [TimerOp.refreshO] = 0 ∧
    (runOps (scheduleTimeoutWith (OverrideArg.arr [OvEntry.fnE, OvEntry.fnE]) 100 [])
        [TimerOp.refreshO]).cancelCalls ≠
      effCancels (scheduleTimeoutWith (OverrideArg.arr [OvEntry.fnE, OvEntry.fnE]) 100 [])
        [TimerOp.refreshO] := by
  exact ⟨by decide, by decide, by decide⟩

/--
C5 (amended): for a timer created with `scheduleTimeoutWith` and both
override halves supplied, over every trace of interactions the schedule
override is invoked exactly once per arming — once at the auto-armed
construction plus once per `refresh()` call — and the cancel override is
invoked exactly once per `cancel()` of a currently pending timer plus once
per `refresh()` of a currently pending timer (spec 4.1); it is never
invoked by a `cancel()` when nothing is pending, and neither override is
ever invoked more times than that.
-/
theorem timer_override_call_counts (d : Nat) (a : List String) (ops : List TimerOp) :
    (runOps (scheduleTimeoutWith (OverrideArg.arr [OvEntry.fnE, OvEntry.fnE]) d a)
        ops).schedCalls = 1 + countRefresh ops ∧
    (runOps (scheduleTimeoutWith (OverrideArg.arr [OvEntry.fnE, OvEntry.fnE]) d a)
        ops).cancelCalls =
      effCancels (scheduleTimeoutWith (OverrideArg.arr [OvEntry.fnE, OvEntry.fnE]) d a) ops +
      pendRefreshes (scheduleTimeoutWith (OverrideArg.arr [OvEntry.fnE, OvEntry.fnE]) d a) ops := by
  have h := runOps_override_counts ops
    (scheduleTimeoutWith (OverrideArg.arr [OvEntry.fnE, OvEntry.fnE]) d a) rfl rfl
  constructor
  · exact h.1
  · rw [h.2]
    have h0 : (scheduleTimeoutWith (OverrideArg.arr [OvEntry.fnE, OvEntry.fnE])
      d a).cancelCalls = 0 := rfl
    rw [h0]
    simp

/--
C6: the `*With` factories given a degenerate override configuration —
`null`, `[null, null]`, an empty pair, a short pair, or non-function
entries — produce a state equal to (hence observationally equivalent to)
the corresponding non-`With` factory, falling back to the platform default
per element, and no error is raised for any such shape (the factories are
total).
-/
theorem timeoutWith_degenerate_overrides_equiv (d : Nat) (a : List String)
    (ops : List TimerOp) :
    createTimeoutWith (OverrideArg.arr [OvEntry.nullE, OvEntry.nullE]) d a =
      createTimeout d a ∧
    createTimeoutWith (OverrideArg.arr []) d a = createTimeout d a ∧
    createTimeoutWith (OverrideArg.arr [OvEntry.nullE]) d a = createTimeout d a ∧
    createTimeoutWith (OverrideArg.arr [OvEntry.nonFnE, OvEntry.nonFnE]) d a =
      createTimeout d a ∧
    createTimeoutWith OverrideArg.noArg d a = createTimeout d a ∧
    scheduleTimeoutWith (OverrideArg.arr [OvEntry.nullE, OvEntry.nullE]) d a =
      scheduleTimeout d a ∧
    scheduleTimeoutWith (OverrideArg.arr []) d a = scheduleTimeout d a ∧
    scheduleTimeoutWith (OverrideArg.arr [OvEntry.nonFnE]) d a = scheduleTimeout d a ∧
    runOps (createTimeoutWith (OverrideArg.arr [OvEntry.nullE, OvEntry.nullE]) d a) ops =
      runOps (createTimeout d a) ops := by
  exact ⟨rfl, rfl, rfl, rfl, rfl, rfl, rfl, rfl, rfl⟩

/--
C7: whatever interactions occur (including refreshes), every invocation of
the user callback of a timer created with `scheduleTimeout(cb, d, ...args)`
receives exactly the extra arguments given at creation, in the same order
and with the same count.
-/
theorem timer_callback_receives_original_args (d : Nat) (a : List String)
    (ops : List TimerOp) (x : List String)
    (hx : x ∈ (runOps (scheduleTimeout d a) ops).argsLog) : x = a := by
  have h := runOps_argsLog ops (scheduleTimeout d a) x hx
  rcases h with h | h
  · simp [scheduleTimeout, scheduleTimeoutWith] at h
  · exact h

/-- Witness for C7: the arguments Hello, Darkness given at creation are
exactly what the callback received when the timer fired. -/
theorem timer_callback_receives_original_args_witness :
    ["Hello", "Darkness"] ∈
      (runOps (scheduleTimeout 100 ["Hello", "Darkness"])
        [TimerOp.advanceO 100]).argsLog ∧
    (["Hello", "Darkness"] : List String) = ["Hello", "Darkness"] := by
  refine ⟨by decide, ?_⟩
  exact timer_callback_receives_original_args 100 ["Hello", "Darkness"]
    [TimerOp.advanceO 100] ["Hello", "Darkness"] (by decide)

/--
C8: a handle produced by `createTimeout`/`createTimeoutWith` is initially
unscheduled — over any trace without a `refresh()` its callback is never
invoked no matter how much time elapses — whereas
`scheduleTimeout`/`scheduleTimeoutWith` produce a state equal to the
create variant with `refresh()` performed at construction.
-/
theorem schedule_equals_create_then_refresh (ov : OverrideArg) (d : Nat)
    (a : List String) :
    scheduleTimeoutWith ov d a = refreshOp (createTimeoutWith ov d a) ∧
    (∀ ops, (∀ op ∈ ops, notRefreshOp op = true) →
      (runOps (createTimeoutWith ov d a) ops).fireCount = 0) := by
  constructor
  · simp [scheduleTimeoutWith, refreshOp, cancelOp, createTimeoutWith]
  · intro ops hops
    exact (runOps_unarmed_silent ops _ hops rfl).1

/-- Witness for C8: a created (unarmed) timer stays silent across 500 units. -/
theorem schedule_equals_create_then_refresh_witness :
    (runOps (createTimeoutWith OverrideArg.noArg 100 [])
      [TimerOp.advanceO 500]).fireCount = 0 := by
  exact (schedule_equals_create_then_refresh OverrideArg.noArg 100 []).2
    [TimerOp.advanceO 500] (by decide)
